import Mathlib

/-!
Verification development for the synthetic-twin-agents study repository.

Part 1 models the p-value correction engine
(src/analysis/p_value_correction/p_val_correction.py): pooling of named
p-value groups, Benjamini-Hochberg FDR adjustment of the pooled family,
summary statistics, and re-partitioning of adjusted values back into the
named groups.  Machine floats are modelled by exact rationals.

Part 2 models the wide-format reshaper
(src/create_synthetic_twin_agents/utilities/data_transformer.py): per-file
column validation, the long-to-wide pivot with its duplicate-key contract,
auxiliary per-agent field extraction, and the batch loop with its
skip-and-continue semantics.
-/

/-! ### Part 1: correction engine definitions -/

/-- A p-value family: a mapping from group names to ordered sequences of
p-values, in insertion order (Python dicts preserve insertion order). -/
abbrev Family := List (String × List ℚ)

/-- Pooling, lines 22-26 of p_val_correction.py: concatenate the groups
in key order (np.concatenate over the per-key arrays). -/
def pool (F : Family) : List ℚ :=
  (F.map Prod.snd).flatten

/-- Pair every element of a list with its position, starting at i. -/
def withIdx : List ℚ → ℕ → List (ℚ × ℕ)
  | [], _ => []
  | p :: ps, i => (p, i) :: withIdx ps (i + 1)

/-- Comparison used to argsort the pooled p-values: ascending by value,
ties broken by original position (a deterministic model of np.argsort). -/
def sortKey (p q : ℚ × ℕ) : Prop :=
  p.1 < q.1 ∨ (p.1 = q.1 ∧ p.2 ≤ q.2)

instance : DecidableRel sortKey := fun p q => by
  unfold sortKey; infer_instance

instance : IsTotal (ℚ × ℕ) sortKey where
  total p q := by
    rcases lt_trichotomy p.1 q.1 with h | h | h
    · exact Or.inl (Or.inl h)
    · rcases Nat.le_total p.2 q.2 with h2 | h2
      · exact Or.inl (Or.inr ⟨h, h2⟩)
      · exact Or.inr (Or.inr ⟨h.symm, h2⟩)
    · exact Or.inr (Or.inl h)

instance : IsTrans (ℚ × ℕ) sortKey where
  trans p q r hpq hqr := by
    rcases hpq with h1 | ⟨h1, h1b⟩
    · rcases hqr with h2 | ⟨h2, _⟩
      · exact Or.inl (h1.trans h2)
      · exact Or.inl (h2 ▸ h1)
    · rcases hqr with h2 | ⟨h2, h2b⟩
      · exact Or.inl (h1 ▸ h2)
      · exact Or.inr ⟨h1.trans h2, h1b.trans h2b⟩

/-- The pooled p-values paired with their original positions, sorted
ascending by value (model of np.argsort inside statsmodels fdrcorrection). -/
def sortedPairs (ps : List ℚ) : List (ℚ × ℕ) :=
  List.insertionSort sortKey (withIdx ps 0)

/-- The pooled p-values in ascending order. -/
def sortedP (ps : List ℚ) : List ℚ :=
  (sortedPairs ps).map Prod.fst

/-- The argsort permutation: original position of each sorted entry. -/
def sortIdx (ps : List ℚ) : List ℕ :=
  (sortedPairs ps).map Prod.snd

/-- Raw BH factors on the sorted sequence: entry at rank k (0-indexed)
is p(k) * n / (k+1), the model of pvals_sorted / ecdffactor. -/
def bhRaw (n : ℕ) (sorted : List ℚ) : List ℚ :=
  (withIdx sorted 0).map (fun x => x.1 * n / ((x.2 : ℚ) + 1))

/-- Suffix running minimum: the model of
np.minimum.accumulate(xs[::-1])[::-1]. -/
def suffixMin : List ℚ → List ℚ
  | [] => []
  | p :: ps =>
    match suffixMin ps with
    | [] => [p]
    | q :: qs => min p q :: q :: qs

/-- Clip adjusted values above 1 down to 1: the model of
pvals_corrected[pvals_corrected > 1] = 1. -/
def clip1 (l : List ℚ) : List ℚ :=
  l.map (fun x => if 1 < x then 1 else x)

/-- BH-adjusted p-values in sorted order.  Models
statsmodels.stats.multitest.multipletests with method fdr_bh
(called at line 33 of p_val_correction.py) on the sorted sequence. -/
def bhAdjSorted (ps : List ℚ) : List ℚ :=
  clip1 (suffixMin (bhRaw ps.length (sortedP ps)))

/-- Step-up comparison per rank: p(k) at rank k (0-indexed) compared
against (k+1)/n * alpha, the model of pvals_sorted <= ecdffactor*alpha. -/
def rejInit (alpha : ℚ) (n : ℕ) (sorted : List ℚ) : List Bool :=
  (withIdx sorted 0).map (fun x => decide (x.1 ≤ ((x.2 : ℚ) + 1) / (n : ℚ) * alpha))

/-- Suffix disjunction: entry k is true iff some entry at position >= k
is true.  Models the rejectmax fill of statsmodels fdrcorrection, where
every rank up to the largest initially-rejected rank is rejected. -/
def suffixAny : List Bool → List Bool
  | [] => []
  | b :: bs =>
    match suffixAny bs with
    | [] => [b]
    | c :: cs => (b || c) :: c :: cs

/-- BH rejection mask in sorted order. -/
def bhRejSorted (alpha : ℚ) (ps : List ℚ) : List Bool :=
  suffixAny (rejInit alpha ps.length (sortedP ps))

/-- Scatter values back to original positions: position t of the result
receives the value whose recorded index is t.  Models the numpy scatter
out[sortind] = corrected. -/
def scatter {α : Type} (idx : List ℕ) (vals : List α) (d : α) (n : ℕ) : List α :=
  (List.range n).map (fun t =>
    match (idx.zip vals).find? (fun q => q.1 == t) with
    | some q => q.2
    | none => d)

/-- BH-adjusted p-values restored to original input order
(pvals_adj_global in the script). -/
def bhAdj (ps : List ℚ) : List ℚ :=
  scatter (sortIdx ps) (bhAdjSorted ps) 0 ps.length

/-- BH rejection mask restored to original input order
(the rejected array in the script). -/
def bhRej (alpha : ℚ) (ps : List ℚ) : List Bool :=
  scatter (sortIdx ps) (bhRejSorted alpha ps) false ps.length

/-- Boolean mask selection, the model of numpy advanced indexing
xs[mask] for a same-length boolean mask. -/
def selectTrue (xs : List ℚ) (mask : List Bool) : List ℚ :=
  ((xs.zip mask).filter (fun q => q.2)).map Prod.fst

/-- The summary record written by the script (lines 58-65).  Absent
fields (Python None, JSON null) are modelled by Option.none. -/
structure Summary where
  alpha : ℚ
  n_tests : ℕ
  n_significant : ℕ
  effective_fdr_threshold_raw : Option ℚ
  min_adjusted_p_among_significant : Option ℚ
  max_adjusted_p_among_significant : Option ℚ
deriving DecidableEq, Repr

/-- Summary computation, lines 36-45 and 58-65 of p_val_correction.py:
branch on rejected.any(); in the significant branch take the max raw
p-value among rejected tests and the min/max adjusted p-value among
rejected tests, else set the three optional fields to None and the
count to 0. -/
def mkSummary (alpha : ℚ) (ps : List ℚ) : Summary :=
  let adj := bhAdj ps
  let rej := bhRej alpha ps
  if rej.any id then
    { alpha := alpha
      n_tests := ps.length
      n_significant := rej.count true
      effective_fdr_threshold_raw := (selectTrue ps rej).max?
      min_adjusted_p_among_significant := (selectTrue adj rej).min?
      max_adjusted_p_among_significant := (selectTrue adj rej).max? }
  else
    { alpha := alpha
      n_tests := ps.length
      n_significant := 0
      effective_fdr_threshold_raw := none
      min_adjusted_p_among_significant := none
      max_adjusted_p_among_significant := none }

/-- Re-partition loop, lines 47-51 of p_val_correction.py: for each key
in order, slice adjusted[start : start + length of group] and advance
start. -/
def repartition (adj : List ℚ) : Family → ℕ → Family
  | [], _ => []
  | g :: rest, start =>
      (g.1, (adj.drop start).take g.2.length) :: repartition adj rest (start + g.2.length)

/-- The correction operation of the spec, correct(family, alpha):
pool, BH-adjust, re-partition, and summarise. -/
def correct (F : Family) (alpha : ℚ) : Family × Summary :=
  (repartition (bhAdj (pool F)) F 0, mkSummary alpha (pool F))

/-- Offset of group i in the pooled sequence: total length of the
groups before it. -/
def offset (F : Family) (i : ℕ) : ℕ :=
  ((F.take i).map (fun g => g.2.length)).sum

/-- A raw JSON value in a p-value group: a number or a non-numeric
string.  Models the unvalidated json.load content fed to np.asarray. -/
inductive JVal where
  | num (q : ℚ)
  | str (s : String)
deriving DecidableEq

/-- Float coercion of one group, the model of
np.asarray(data[k], dtype=float) at line 23: numbers pass through
unvalidated (no range check), a string raises ValueError. -/
def coerceGroup : List JVal → Except String (List ℚ)
  | [] => .ok []
  | .num q :: vs => (coerceGroup vs).map (fun l => q :: l)
  | .str s :: _ => .error ("could not convert string to float: " ++ s)

/-- Float coercion of the whole family, in key order. -/
def coerceFamily : List (String × List JVal) → Except String Family
  | [] => .ok []
  | g :: rest =>
    match coerceGroup g.2 with
    | .error e => .error e
    | .ok l => (coerceFamily rest).map (fun F => (g.1, l) :: F)

/-- One engine output: the adjusted family and the summary, the two
files the script writes. -/
structure EngineOutput where
  adjusted : Family
  summary : Summary
deriving DecidableEq

/-- The whole script as a function.  The input is none when the input
file is missing (line 15: exit(1)); an uncaught coercion ValueError
terminates the process with status 1; an empty pooled family exits
with status 1 before any write (lines 28-30); otherwise both outputs
are produced.  Except.error c models process exit with status c and no
output files written. -/
def runEngine (input : Option (List (String × List JVal))) (alpha : ℚ) :
    Except ℕ EngineOutput :=
  match input with
  | none => .error 1
  | some raw =>
    match coerceFamily raw with
    | .error _ => .error 1
    | .ok F =>
      if (pool F).length = 0 then .error 1
      else .ok { adjusted := (correct F alpha).1, summary := (correct F alpha).2 }

/-! ### Part 2: wide-format reshaper definitions -/

/-- One parsed CSV row: cell values keyed by column name, in column
order.  Cells are total within a row (the model treats parsed files as
having a value in every cell). -/
structure Row where
  cells : List (String × String)
deriving DecidableEq

/-- Look up the value of a column in a row. -/
def Row.getCol (r : Row) (c : String) : Option String :=
  (r.cells.find? (fun p => p.1 == c)).map Prod.snd

/-- One parsed CSV file: its file name, header columns, and rows. -/
structure CsvFile where
  name : String
  columns : List String
  rows : List Row
deriving DecidableEq

/-- The default required columns of
transform_survey_data_to_wide_format (lines 57-62). -/
def defaultRequiredColumns : List String :=
  ["agent.prolific_pid", "scenario.question_name", "answer.question"]

/-- The default additional agent-level fields (lines 65-73). -/
def defaultAdditionalFields : List String :=
  ["agent.prolific_pid", "agent.extraversion_score", "agent.agreeableness_score",
   "agent.conscientiousness_score", "agent.neuroticism_score", "agent.openness_score"]

/-- The agent identifier of a row (column agent.prolific_pid). -/
def agentOf (r : Row) : String :=
  (r.getCol "agent.prolific_pid").getD ""

/-- The question identifier of a row (column scenario.question_name). -/
def questionOf (r : Row) : String :=
  (r.getCol "scenario.question_name").getD ""

/-- The answer value of a row (column answer.question). -/
def answerOf (r : Row) : String :=
  (r.getCol "answer.question").getD ""

/-- The (agent, question) key of every row, the pivot index/column
pairs of pandas DataFrame.pivot. -/
def pivotPairs (f : CsvFile) : List (String × String) :=
  f.rows.map (fun r => (agentOf r, questionOf r))

/-- The distinct agent identifiers of a file, in first-occurrence
order.  (pandas pivot sorts the index; no claim depends on row order,
so the model keeps first-occurrence order.) -/
def agentsOf (f : CsvFile) : List String :=
  (f.rows.map agentOf).dedup

/-- First observed value of a field for an agent, in original row
order: the model of data.groupby(agent)[field].first() at line 121. -/
def firstAuxVal (f : CsvFile) (field a : String) : Option String :=
  ((f.rows.filter (fun r => agentOf r == a)).head?).bind (fun r => r.getCol field)

/-- The per-file wide table produced inside the loop: provenance tag,
unique agents, the pivoted (agent, question, answer) content, and the
attached auxiliary columns (field name paired with its per-agent
values). -/
structure Wide where
  sourceFile : String
  agents : List String
  triples : List (String × String × String)
  aux : List (String × List (String × String))
deriving DecidableEq

/-- Processing of one CSV file, the body of the try block at lines
93-140: validate required columns (missing columns lead to a skip,
lines 98-103); pivot, where a duplicate (agent, question) pair raises
ValueError inside pandas DataFrame.pivot (lines 106-110); attach the
auxiliary per-agent fields present in the file (lines 118-121); tag
with the source file name (line 116).  Except.error carries the skip
reason. -/
def processFile (required auxFields : List String) (f : CsvFile) : Except String Wide :=
  if (required.filter (fun c => ¬ f.columns.contains c)) ≠ [] then
    .error "Required columns missing"
  else if ¬ (pivotPairs f).Nodup then
    .error "Index contains duplicate entries, cannot reshape"
  else
    .ok { sourceFile := f.name
          agents := agentsOf f
          triples := f.rows.map (fun r => (agentOf r, questionOf r, answerOf r))
          aux := (auxFields.filter (fun fl => f.columns.contains fl)).map
            (fun fl => (fl, (agentsOf f).map (fun a => (a, (firstAuxVal f fl a).getD "")))) }

/-- Accumulated state of the batch loop: the collected per-file tables
and the processed/skipped counters (lines 80-82). -/
structure BatchResult where
  tables : List Wide
  processed : ℕ
  skipped : ℕ
deriving DecidableEq

/-- Suffix test on file names, the model of the Python
file_name.endswith test at line 87, computed on the character list of
the string. -/
def nameEndsWith (s suf : String) : Bool :=
  suf.data.isSuffixOf s.data

/-- One iteration of the batch loop (lines 85-145): files whose name
does not end in .csv are ignored entirely; a successfully processed
file is appended and counted; a failed file only increments the
skipped counter. -/
def batchStep (required auxFields : List String) (acc : BatchResult) (f : CsvFile) :
    BatchResult :=
  if nameEndsWith f.name ".csv" then
    match processFile required auxFields f with
    | .ok w => ⟨acc.tables ++ [w], acc.processed + 1, acc.skipped⟩
    | .error _ => ⟨acc.tables, acc.processed, acc.skipped + 1⟩
  else acc

/-- The batch loop over the directory listing. -/
def processDir (required auxFields : List String) (files : List CsvFile) : BatchResult :=
  files.foldl (batchStep required auxFields) ⟨[], 0, 0⟩

/-- transform_survey_data_to_wide_format after the loop (lines
147-152): if no file was processed raise ValueError (modelled as
Except.error, so no combined output exists), else return the
concatenated tables and the counters. -/
def transform_survey_data_to_wide_format (required auxFields : List String)
    (files : List CsvFile) : Except String (List Wide × ℕ × ℕ) :=
  let b := processDir required auxFields files
  if b.tables.isEmpty then
    .error "No valid CSV files found or all files were skipped"
  else
    .ok (b.tables, b.processed, b.skipped)

/-! ### Concrete example data used by witnesses -/

/-- A CSV file with two rows for one agent, used to exhibit the
auxiliary-field extraction. -/
def exampleCsv : CsvFile :=
  { name := "file1.csv",
    columns := ["agent.prolific_pid", "scenario.question_name", "answer.question",
      "agent.extraversion_score"],
    rows := [
      { cells := [("agent.prolific_pid", "a1"), ("scenario.question_name", "q1"),
        ("answer.question", "3"), ("agent.extraversion_score", "7")] },
      { cells := [("agent.prolific_pid", "a1"), ("scenario.question_name", "q2"),
        ("answer.question", "4"), ("agent.extraversion_score", "7")] }] }

/-- The wide table produced from exampleCsv. -/
def exampleWide : Wide :=
  { sourceFile := "file1.csv",
    agents := ["a1"],
    triples := [("a1", "q1", "3"), ("a1", "q2", "4")],
    aux := [("agent.prolific_pid", [("a1", "a1")]),
            ("agent.extraversion_score", [("a1", "7")])] }

/-- A CSV file with a duplicated (agent, question) pair. -/
def dupExample : CsvFile :=
  { name := "dup.csv",
    columns := ["agent.prolific_pid", "scenario.question_name", "answer.question"],
    rows := [
      { cells := [("agent.prolific_pid", "a1"), ("scenario.question_name", "q1"),
        ("answer.question", "3")] },
      { cells := [("agent.prolific_pid", "a1"), ("scenario.question_name", "q1"),
        ("answer.question", "5")] }] }

/-- A file whose name does not end in .csv. -/
def textExample : CsvFile :=
  { name := "notes.txt",
    columns := ["agent.prolific_pid", "scenario.question_name", "answer.question"],
    rows := [] }

/-! ### Helper lemmas: indexing and sorting infrastructure -/

theorem withIdx_length (l : List ℚ) (i : ℕ) : (withIdx l i).length = l.length := by
  induction l generalizing i with
  | nil => rfl
  | cons p ps ih => simp [withIdx, ih]

theorem withIdx_getElem? (l : List ℚ) (i k : ℕ) :
    (withIdx l i)[k]? = l[k]?.map (fun p => (p, i + k)) := by
  induction l generalizing i k with
  | nil => simp [withIdx]
  | cons p ps ih =>
    cases k with
    | zero => simp [withIdx]
    | succ k =>
      simp only [withIdx, List.getElem?_cons_succ, ih]
      have harith : i + 1 + k = i + (k + 1) := by omega
      rw [harith]

theorem withIdx_map_fst (l : List ℚ) (i : ℕ) : (withIdx l i).map Prod.fst = l := by
  induction l generalizing i with
  | nil => rfl
  | cons p ps ih => simp [withIdx, ih]

theorem withIdx_map_snd (l : List ℚ) (i : ℕ) :
    (withIdx l i).map Prod.snd = List.range' i l.length := by
  induction l generalizing i with
  | nil => rfl
  | cons p ps ih => simp [withIdx, ih, List.range'_succ]

theorem sortedPairs_perm (ps : List ℚ) : (sortedPairs ps).Perm (withIdx ps 0) :=
  List.perm_insertionSort sortKey (withIdx ps 0)

theorem sortedP_perm (ps : List ℚ) : (sortedP ps).Perm ps := by
  have h := (sortedPairs_perm ps).map Prod.fst
  rwa [withIdx_map_fst] at h

theorem sortIdx_perm (ps : List ℚ) : (sortIdx ps).Perm (List.range ps.length) := by
  have h := (sortedPairs_perm ps).map Prod.snd
  rw [withIdx_map_snd, ← List.range_eq_range'] at h
  exact h

theorem sortIdx_nodup (ps : List ℚ) : (sortIdx ps).Nodup :=
  ((sortIdx_perm ps).nodup_iff).mpr (List.nodup_range _)

theorem sortIdx_length (ps : List ℚ) : (sortIdx ps).length = ps.length := by
  simpa using (sortIdx_perm ps).length_eq

theorem sortIdx_mem_lt (ps : List ℚ) {t : ℕ} (h : t ∈ sortIdx ps) : t < ps.length := by
  have h2 := (sortIdx_perm ps).mem_iff.mp h
  simpa using h2

theorem sortedP_length (ps : List ℚ) : (sortedP ps).length = ps.length :=
  (sortedP_perm ps).length_eq

theorem sortedP_mem {ps : List ℚ} {x : ℚ} (h : x ∈ sortedP ps) : x ∈ ps :=
  (sortedP_perm ps).mem_iff.mp h

theorem sortedP_sorted (ps : List ℚ) : List.Sorted (· ≤ ·) (sortedP ps) := by
  have h : List.Sorted sortKey (sortedPairs ps) :=
    List.sorted_insertionSort sortKey (withIdx ps 0)
  exact List.Pairwise.map Prod.fst
    (fun a b hab => by
      rcases hab with h1 | ⟨h1, _⟩
      · exact le_of_lt h1
      · exact le_of_eq h1) h

theorem scatter_length {α : Type} (idx : List ℕ) (vals : List α) (d : α) (n : ℕ) :
    (scatter idx vals d n).length = n := by
  simp [scatter]

theorem getElem?_eq_some_getD {α : Type} {l : List α} {k : ℕ} (d : α) (h : k < l.length) :
    l[k]? = some (l.getD k d) := by
  rw [List.getD_eq_getElem?_getD, List.getElem?_eq_getElem h]
  rfl

theorem find?_zip_of_nodup {α : Type} {idx : List ℕ} {vals : List α}
    (hn : idx.Nodup) (hlen : idx.length = vals.length) {k t : ℕ}
    (ht : idx[k]? = some t) {v : α} (hv : vals[k]? = some v) :
    (idx.zip vals).find? (fun q => q.1 == t) = some (t, v) := by
  induction idx generalizing vals k with
  | nil => simp at ht
  | cons i is ih =>
    cases vals with
    | nil => simp at hlen
    | cons w ws =>
      cases k with
      | zero =>
        simp only [List.getElem?_cons_zero, Option.some.injEq] at ht hv
        subst ht; subst hv
        rw [List.zip_cons_cons]
        exact List.find?_cons_of_pos _ (by simp)
      | succ k =>
        simp only [List.getElem?_cons_succ] at ht hv
        have hne : i ≠ t := by
          intro hcontra
          subst hcontra
          exact (List.nodup_cons.mp hn).1 (List.getElem?_mem ht)
        rw [List.zip_cons_cons]
        rw [List.find?_cons_of_neg _ (by simp [hne])]
        exact ih (List.nodup_cons.mp hn).2 (by simpa using hlen) ht hv

theorem scatter_getElem? {α : Type} {idx : List ℕ} {vals : List α} {d : α} {n : ℕ}
    (hn : idx.Nodup) (hlen : idx.length = vals.length)
    (hmem : ∀ t ∈ idx, t < n) {k t : ℕ} (ht : idx[k]? = some t)
    {v : α} (hv : vals[k]? = some v) :
    (scatter idx vals d n)[t]? = some v := by
  have htn : t < n := hmem t (List.getElem?_mem ht)
  unfold scatter
  rw [List.getElem?_map, List.getElem?_range htn]
  simp [find?_zip_of_nodup hn hlen ht hv]

/-! ### Helper lemmas: suffix minimum, suffix disjunction, clipping -/

theorem suffixMin_length (l : List ℚ) : (suffixMin l).length = l.length := by
  induction l with
  | nil => rfl
  | cons p ps ih =>
    unfold suffixMin
    cases h : suffixMin ps with
    | nil => rw [h] at ih; simpa using ih.symm
    | cons q qs => rw [h] at ih; simpa using ih

theorem suffixMin_le {l : List ℚ} {k j : ℕ} (hk : k ≤ j) (hj : j < l.length) :
    (suffixMin l).getD k 0 ≤ l.getD j 0 := by
  induction l generalizing k j with
  | nil => simp at hj
  | cons p ps ih =>
    unfold suffixMin
    cases h : suffixMin ps with
    | nil =>
      have hps : ps.length = 0 := by
        have := suffixMin_length ps
        rw [h] at this; simpa using this.symm
      have hj0 : j = 0 := by simp at hj; omega
      have hk0 : k = 0 := by omega
      subst hj0; subst hk0
      simp
    | cons q qs =>
      cases k with
      | zero =>
        cases j with
        | zero => simp [List.getD_cons_zero]
        | succ j =>
          rw [List.getD_cons_zero, List.getD_cons_succ]
          have hq : q = (suffixMin ps).getD 0 0 := by rw [h]; rfl
          have hle : (suffixMin ps).getD 0 0 ≤ ps.getD j 0 :=
            ih (Nat.zero_le j) (by simpa using hj)
          calc min p q ≤ q := min_le_right _ _
            _ ≤ ps.getD j 0 := hq ▸ hle
      | succ k =>
        cases j with
        | zero => omega
        | succ j =>
          rw [List.getD_cons_succ, List.getD_cons_succ]
          have := ih (Nat.le_of_succ_le_succ hk) (by simpa using hj)
          rwa [h] at this

theorem suffixMin_mem {l : List ℚ} {k : ℕ} (hk : k < l.length) :
    ∃ j, k ≤ j ∧ j < l.length ∧ (suffixMin l).getD k 0 = l.getD j 0 := by
  induction l generalizing k with
  | nil => simp at hk
  | cons p ps ih =>
    unfold suffixMin
    cases h : suffixMin ps with
    | nil =>
      have hps : ps.length = 0 := by
        have := suffixMin_length ps
        rw [h] at this; simpa using this.symm
      have hk0 : k = 0 := by simp at hk; omega
      subst hk0
      exact ⟨0, le_refl 0, by simp, by simp⟩
    | cons q qs =>
      cases k with
      | zero =>
        rcases le_total p q with hpq | hpq
        · exact ⟨0, le_refl 0, by simp, by simp [min_eq_left hpq]⟩
        · have hps : 0 < ps.length := by
            have := suffixMin_length ps
            rw [h] at this; simp at this; omega
          obtain ⟨j, _, hj2, hj3⟩ := ih hps
          rw [h] at hj3
          refine ⟨j + 1, Nat.zero_le _, by simpa using hj2, ?_⟩
          rw [List.getD_cons_zero, List.getD_cons_succ, min_eq_right hpq]
          simpa using hj3
      | succ k =>
        have hks : k < ps.length := by simpa using hk
        obtain ⟨j, hj1, hj2, hj3⟩ := ih hks
        rw [h] at hj3
        refine ⟨j + 1, Nat.succ_le_succ hj1, by simpa using hj2, ?_⟩
        rw [List.getD_cons_succ, List.getD_cons_succ]
        simpa using hj3

theorem suffixMin_sorted (l : List ℚ) : List.Sorted (· ≤ ·) (suffixMin l) := by
  induction l with
  | nil => simp [suffixMin]
  | cons p ps ih =>
    unfold suffixMin
    cases h : suffixMin ps with
    | nil => simp
    | cons q qs =>
      rw [h] at ih
      rw [List.sorted_cons]
      refine ⟨?_, ih⟩
      intro b hb
      rcases List.mem_cons.mp hb with rfl | hb
      · exact min_le_right _ _
      · have hq : ∀ c ∈ qs, q ≤ c := (List.sorted_cons.mp ih).1
        exact le_trans (min_le_right _ _) (hq b hb)

theorem suffixAny_length (l : List Bool) : (suffixAny l).length = l.length := by
  induction l with
  | nil => rfl
  | cons b bs ih =>
    unfold suffixAny
    cases h : suffixAny bs with
    | nil => rw [h] at ih; simpa using ih.symm
    | cons c cs => rw [h] at ih; simpa using ih

theorem suffixAny_getD {l : List Bool} {k : ℕ} (hk : k < l.length) :
    (suffixAny l).getD k false = true ↔
      ∃ j, k ≤ j ∧ j < l.length ∧ l.getD j false = true := by
  induction l generalizing k with
  | nil => simp at hk
  | cons b bs ih =>
    unfold suffixAny
    cases h : suffixAny bs with
    | nil =>
      have hbs : bs.length = 0 := by
        have := suffixAny_length bs
        rw [h] at this; simpa using this.symm
      have hk0 : k = 0 := by simp at hk; omega
      subst hk0
      constructor
      · intro hb; exact ⟨0, le_refl 0, by simp, by simpa using hb⟩
      · rintro ⟨j, _, hj2, hj3⟩
        have hj0 : j = 0 := by simp at hj2; omega
        subst hj0; simpa using hj3
    | cons c cs =>
      have hlenbs : 0 < bs.length := by
        have := suffixAny_length bs
        rw [h] at this; simp at this; omega
      cases k with
      | zero =>
        rw [List.getD_cons_zero]
        constructor
        · intro hb
          rcases Bool.or_eq_true_iff.mp hb with hb | hc
          · exact ⟨0, le_refl 0, by simp, by simpa using hb⟩
          · have hc2 : (suffixAny bs).getD 0 false = true := by rw [h]; simpa using hc
            obtain ⟨j, _, hj2, hj3⟩ := (ih hlenbs).mp hc2
            exact ⟨j + 1, Nat.zero_le _, by simpa using hj2, by simpa using hj3⟩
        · rintro ⟨j, _, hj2, hj3⟩
          cases j with
          | zero =>
            rw [List.getD_cons_zero] at hj3
            simp [hj3]
          | succ j =>
            rw [List.getD_cons_succ] at hj3
            have : (suffixAny bs).getD 0 false = true :=
              (ih hlenbs).mpr ⟨j, Nat.zero_le _, by simpa using hj2, hj3⟩
            rw [h] at this
            simp at this
            simp [this]
      | succ k =>
        have hks : k < bs.length := by simpa using hk
        rw [List.getD_cons_succ]
        have hiff := ih hks
        rw [h] at hiff
        constructor
        · intro hb
          obtain ⟨j, hj1, hj2, hj3⟩ := hiff.mp hb
          exact ⟨j + 1, Nat.succ_le_succ hj1, by simpa using hj2, by simpa using hj3⟩
        · rintro ⟨j, hj1, hj2, hj3⟩
          cases j with
          | zero => omega
          | succ j =>
            rw [List.getD_cons_succ] at hj3
            exact hiff.mpr ⟨j, Nat.le_of_succ_le_succ hj1, by simpa using hj2, hj3⟩

theorem clip1_length (l : List ℚ) : (clip1 l).length = l.length := by
  simp [clip1]

theorem clip1_getD {l : List ℚ} {k : ℕ} (hk : k < l.length) :
    (clip1 l).getD k 0 = if 1 < l.getD k 0 then 1 else l.getD k 0 := by
  have h := getElem?_eq_some_getD (0 : ℚ) hk
  rw [List.getD_eq_getElem?_getD, clip1, List.getElem?_map, h]
  rfl

theorem clip1_sorted {l : List ℚ} (h : List.Sorted (· ≤ ·) l) :
    List.Sorted (· ≤ ·) (clip1 l) := by
  unfold clip1
  apply List.Pairwise.map _ _ h
  intro a b hab
  by_cases ha : 1 < a <;> by_cases hb : 1 < b <;> simp [ha, hb] <;> linarith

theorem bhRaw_length (n : ℕ) (sorted : List ℚ) : (bhRaw n sorted).length = sorted.length := by
  simp [bhRaw, withIdx_length]

theorem bhRaw_getElem? (n : ℕ) (sorted : List ℚ) (k : ℕ) :
    (bhRaw n sorted)[k]? = (sorted[k]?).map (fun p => p * n / ((k : ℚ) + 1)) := by
  rw [bhRaw, List.getElem?_map, withIdx_getElem?]
  cases sorted[k]? <;> simp

theorem rejInit_length (alpha : ℚ) (n : ℕ) (sorted : List ℚ) :
    (rejInit alpha n sorted).length = sorted.length := by
  simp [rejInit, withIdx_length]

theorem rejInit_getElem? (alpha : ℚ) (n : ℕ) (sorted : List ℚ) (k : ℕ) :
    (rejInit alpha n sorted)[k]? =
      (sorted[k]?).map (fun p => decide (p ≤ ((k : ℚ) + 1) / (n : ℚ) * alpha)) := by
  rw [rejInit, List.getElem?_map, withIdx_getElem?]
  cases sorted[k]? <;> simp

theorem bhAdjSorted_length (ps : List ℚ) : (bhAdjSorted ps).length = ps.length := by
  rw [bhAdjSorted, clip1_length, suffixMin_length, bhRaw_length, sortedP_length]

theorem bhRejSorted_length (alpha : ℚ) (ps : List ℚ) :
    (bhRejSorted alpha ps).length = ps.length := by
  rw [bhRejSorted, suffixAny_length, rejInit_length, sortedP_length]

theorem bhAdj_length (ps : List ℚ) : (bhAdj ps).length = ps.length := by
  rw [bhAdj, scatter_length]

theorem bhRej_length (alpha : ℚ) (ps : List ℚ) : (bhRej alpha ps).length = ps.length := by
  rw [bhRej, scatter_length]

/-! ### Helper lemmas: pooling and re-partitioning -/

theorem pool_length (F : Family) :
    (pool F).length = (F.map (fun g => g.2.length)).sum := by
  rw [pool, List.length_flatten, List.map_map]
  rfl

theorem repartition_map_fst (adj : List ℚ) (F : Family) (s : ℕ) :
    (repartition adj F s).map Prod.fst = F.map Prod.fst := by
  induction F generalizing s with
  | nil => rfl
  | cons g rest ih => simp [repartition, ih]

theorem repartition_lengths (adj : List ℚ) (F : Family) (s : ℕ)
    (h : s + (F.map (fun g => g.2.length)).sum ≤ adj.length) :
    (repartition adj F s).map (fun g => g.2.length) = F.map (fun g => g.2.length) := by
  induction F generalizing s with
  | nil => rfl
  | cons g rest ih =>
    simp only [List.map_cons, List.sum_cons] at h
    simp only [repartition, List.map_cons, List.cons.injEq]
    constructor
    · rw [List.length_take, List.length_drop]
      have hsum : 0 ≤ (rest.map (fun g => g.2.length)).sum := Nat.zero_le _
      omega
    · exact ih (s + g.2.length) (by omega)

theorem offset_succ (g : String × List ℚ) (rest : Family) (i : ℕ) :
    offset (g :: rest) (i + 1) = g.2.length + offset rest i := by
  simp [offset, List.take_succ_cons]

theorem repartition_getD (adj : List ℚ) (F : Family) (s i j : ℕ)
    (h : s + (F.map (fun g => g.2.length)).sum ≤ adj.length)
    (hi : i < F.length) (hj : j < (F.getD i ("", [])).2.length) :
    ((repartition adj F s).getD i ("", [])).2.getD j 0 =
      adj.getD (s + offset F i + j) 0 := by
  induction F generalizing s i with
  | nil => simp at hi
  | cons g rest ih =>
    simp only [List.map_cons, List.sum_cons] at h
    cases i with
    | zero =>
      simp only [repartition, List.getD_cons_zero] at hj ⊢
      have hoff : offset (g :: rest) 0 = 0 := rfl
      rw [hoff]
      rw [List.getD_eq_getElem?_getD, List.getD_eq_getElem?_getD,
        List.getElem?_take, if_pos hj, List.getElem?_drop]
      simp
    | succ i =>
      simp only [repartition, List.getD_cons_succ] at hj ⊢
      rw [offset_succ]
      have := ih (s + g.2.length) i (by omega) (by simpa using hi) hj
      rw [this]
      congr 1
      omega

/-! ### Helper lemmas: list maximum, minimum and mask selection -/

theorem foldl_max_spec (l : List ℚ) (a : ℚ) :
    (l.foldl max a = a ∨ l.foldl max a ∈ l) ∧
      a ≤ l.foldl max a ∧ ∀ x ∈ l, x ≤ l.foldl max a := by
  induction l generalizing a with
  | nil => simp
  | cons b bs ih =>
    obtain ⟨h1, h2, h3⟩ := ih (max a b)
    rw [List.foldl_cons]
    refine ⟨?_, le_trans (le_max_left a b) h2, ?_⟩
    · rcases h1 with h | h
      · rcases max_choice a b with hm | hm
        · exact Or.inl (by rw [h, hm])
        · exact Or.inr (by rw [h, hm]; exact List.mem_cons_self _ _)
      · exact Or.inr (List.mem_cons_of_mem _ h)
    · intro x hx
      rcases List.mem_cons.mp hx with rfl | hx
      · exact le_trans (le_max_right a x) h2
      · exact h3 x hx

theorem max?_spec {l : List ℚ} {m : ℚ} (h : l.max? = some m) :
    m ∈ l ∧ ∀ x ∈ l, x ≤ m := by
  cases l with
  | nil => simp [List.max?] at h
  | cons a as =>
    have hm : m = as.foldl max a := by
      simp [List.max?] at h
      exact h.symm
    obtain ⟨h1, h2, h3⟩ := foldl_max_spec as a
    subst hm
    constructor
    · rcases h1 with h | h
      · rw [h]; exact List.mem_cons_self _ _
      · exact List.mem_cons_of_mem _ h
    · intro x hx
      rcases List.mem_cons.mp hx with rfl | hx
      · exact h2
      · exact h3 x hx

theorem foldl_min_spec (l : List ℚ) (a : ℚ) :
    (l.foldl min a = a ∨ l.foldl min a ∈ l) ∧
      l.foldl min a ≤ a ∧ ∀ x ∈ l, l.foldl min a ≤ x := by
  induction l generalizing a with
  | nil => simp
  | cons b bs ih =>
    obtain ⟨h1, h2, h3⟩ := ih (min a b)
    rw [List.foldl_cons]
    refine ⟨?_, le_trans h2 (min_le_left a b), ?_⟩
    · rcases h1 with h | h
      · rcases min_choice a b with hm | hm
        · exact Or.inl (by rw [h, hm])
        · exact Or.inr (by rw [h, hm]; exact List.mem_cons_self _ _)
      · exact Or.inr (List.mem_cons_of_mem _ h)
    · intro x hx
      rcases List.mem_cons.mp hx with rfl | hx
      · exact le_trans h2 (min_le_right a x)
      · exact h3 x hx

theorem min?_spec {l : List ℚ} {m : ℚ} (h : l.min? = some m) :
    m ∈ l ∧ ∀ x ∈ l, m ≤ x := by
  cases l with
  | nil => simp [List.min?] at h
  | cons a as =>
    have hm : m = as.foldl min a := by
      simp [List.min?] at h
      exact h.symm
    obtain ⟨h1, h2, h3⟩ := foldl_min_spec as a
    subst hm
    constructor
    · rcases h1 with h | h
      · rw [h]; exact List.mem_cons_self _ _
      · exact List.mem_cons_of_mem _ h
    · intro x hx
      rcases List.mem_cons.mp hx with rfl | hx
      · exact h2
      · exact h3 x hx

theorem max?_isSome_of_ne_nil {l : List ℚ} (h : l ≠ []) : ∃ m, l.max? = some m := by
  cases l with
  | nil => exact absurd rfl h
  | cons a as => exact ⟨as.foldl max a, by simp [List.max?]⟩

theorem min?_isSome_of_ne_nil {l : List ℚ} (h : l ≠ []) : ∃ m, l.min? = some m := by
  cases l with
  | nil => exact absurd rfl h
  | cons a as => exact ⟨as.foldl min a, by simp [List.min?]⟩

theorem selectTrue_ne_nil {xs : List ℚ} {mask : List Bool}
    (hlen : xs.length = mask.length) (h : mask.any id = true) :
    selectTrue xs mask ≠ [] := by
  induction xs generalizing mask with
  | nil =>
    cases mask with
    | nil => simp at h
    | cons b bs => simp at hlen
  | cons x xs ih =>
    cases mask with
    | nil => simp at hlen
    | cons b bs =>
      cases b with
      | true =>
        simp [selectTrue, List.zip_cons_cons, List.filter_cons_of_pos]
      | false =>
        have hbs : bs.any id = true := by simpa using h
        have hx := ih (by simpa using hlen) hbs
        simpa [selectTrue, List.zip_cons_cons, List.filter_cons_of_neg] using hx

theorem any_iff_count_pos (l : List Bool) : l.any id = true ↔ 0 < l.count true := by
  rw [List.any_eq_true, List.count_pos_iff]
  constructor
  · rintro ⟨x, hx, hid⟩
    cases x
    · simp at hid
    · exact hx
  · intro h
    exact ⟨true, h, rfl⟩

/-! ### Helper lemmas: the BH adjustment on the sorted sequence -/

theorem ratioLe {p a : ℚ} {n j : ℕ} (hn : 0 < n) :
    p * (n : ℚ) / ((j : ℚ) + 1) ≤ a ↔ p ≤ ((j : ℚ) + 1) / (n : ℚ) * a := by
  have hj : (0 : ℚ) < (j : ℚ) + 1 := by positivity
  have hn2 : (0 : ℚ) < (n : ℚ) := by exact_mod_cast hn
  rw [div_le_iff₀ hj, div_mul_eq_mul_div, le_div_iff₀ hn2, mul_comm a ((j : ℚ) + 1)]

theorem bhRaw_getD {n : ℕ} {sorted : List ℚ} {k : ℕ} (hk : k < sorted.length) :
    (bhRaw n sorted).getD k 0 = sorted.getD k 0 * (n : ℚ) / ((k : ℚ) + 1) := by
  rw [List.getD_eq_getElem?_getD, bhRaw_getElem?, getElem?_eq_some_getD (0 : ℚ) hk]
  rfl

theorem rejInit_getD {alpha : ℚ} {n : ℕ} {sorted : List ℚ} {k : ℕ} (hk : k < sorted.length) :
    (rejInit alpha n sorted).getD k false =
      decide (sorted.getD k 0 ≤ ((k : ℚ) + 1) / (n : ℚ) * alpha) := by
  rw [List.getD_eq_getElem?_getD, rejInit_getElem?, getElem?_eq_some_getD (0 : ℚ) hk]
  rfl

theorem sortedP_getD_le_one {ps : List ℚ} (hp : ∀ p ∈ ps, p ≤ 1) {k : ℕ}
    (hk : k < ps.length) : (sortedP ps).getD k 0 ≤ 1 := by
  have hks : k < (sortedP ps).length := by rw [sortedP_length]; exact hk
  have hmem : (sortedP ps).getD k 0 ∈ sortedP ps := by
    rw [List.getD_eq_getElem?_getD, List.getElem?_eq_getElem hks]
    exact List.getElem_mem hks
  exact hp _ (sortedP_mem hmem)

theorem bhAdjSorted_eq_suffixMin {ps : List ℚ} (hp : ∀ p ∈ ps, p ≤ 1)
    {k : ℕ} (hk : k < ps.length) :
    (bhAdjSorted ps).getD k 0 =
      (suffixMin (bhRaw ps.length (sortedP ps))).getD k 0 ∧
    (suffixMin (bhRaw ps.length (sortedP ps))).getD k 0 ≤ 1 := by
  have hn : 0 < ps.length := Nat.lt_of_le_of_lt (Nat.zero_le k) hk
  have hlen_s : (sortedP ps).length = ps.length := sortedP_length ps
  have hlen_r : (bhRaw ps.length (sortedP ps)).length = ps.length := by
    rw [bhRaw_length, hlen_s]
  have hlast : ps.length - 1 < (sortedP ps).length := by omega
  have hrlast :
      (bhRaw ps.length (sortedP ps)).getD (ps.length - 1) 0 =
        (sortedP ps).getD (ps.length - 1) 0 := by
    rw [bhRaw_getD hlast]
    have hcast : ((ps.length - 1 : ℕ) : ℚ) + 1 = (ps.length : ℚ) := by
      rw [Nat.cast_sub (by omega)]
      push_cast
      ring
    rw [hcast, mul_div_assoc,
      div_self (by exact_mod_cast Nat.pos_iff_ne_zero.mp hn), mul_one]
  have hbound : (suffixMin (bhRaw ps.length (sortedP ps))).getD k 0 ≤ 1 := by
    have h1 := suffixMin_le (l := bhRaw ps.length (sortedP ps))
      (k := k) (j := ps.length - 1) (by omega) (by omega)
    rw [hrlast] at h1
    exact le_trans h1 (sortedP_getD_le_one hp (by omega))
  refine ⟨?_, hbound⟩
  rw [bhAdjSorted, clip1_getD (by rw [suffixMin_length]; omega)]
  rw [if_neg (by push_neg; exact hbound)]

theorem bhAdjSorted_le_alpha_iff {alpha : ℚ} {ps : List ℚ} (hp : ∀ p ∈ ps, p ≤ 1)
    {k : ℕ} (hk : k < ps.length) :
    (bhAdjSorted ps).getD k 0 ≤ alpha ↔
      ∃ j, k ≤ j ∧ j < ps.length ∧
        (sortedP ps).getD j 0 ≤ ((j : ℚ) + 1) / (ps.length : ℚ) * alpha := by
  have hn : 0 < ps.length := Nat.lt_of_le_of_lt (Nat.zero_le k) hk
  have hlen_s : (sortedP ps).length = ps.length := sortedP_length ps
  have hlen_r : (bhRaw ps.length (sortedP ps)).length = ps.length := by
    rw [bhRaw_length, hlen_s]
  rw [(bhAdjSorted_eq_suffixMin hp hk).1]
  constructor
  · intro hle
    obtain ⟨j, hj1, hj2, hj3⟩ :=
      suffixMin_mem (l := bhRaw ps.length (sortedP ps)) (k := k) (by omega)
    have hj2n : j < ps.length := by omega
    refine ⟨j, hj1, hj2n, ?_⟩
    rw [← ratioLe hn, ← bhRaw_getD (by omega), ← hj3]
    exact hle
  · rintro ⟨j, hj1, hj2, hj3⟩
    have hle2 := suffixMin_le (l := bhRaw ps.length (sortedP ps))
      (k := k) (j := j) hj1 (by omega)
    rw [bhRaw_getD (by omega)] at hle2
    exact le_trans hle2 ((ratioLe hn).mpr hj3)

theorem bhRejSorted_getD_iff {alpha : ℚ} {ps : List ℚ} {k : ℕ} (hk : k < ps.length) :
    (bhRejSorted alpha ps).getD k false = true ↔
      ∃ j, k ≤ j ∧ j < ps.length ∧
        (sortedP ps).getD j 0 ≤ ((j : ℚ) + 1) / (ps.length : ℚ) * alpha := by
  have hlen_s : (sortedP ps).length = ps.length := sortedP_length ps
  have hlen_i : (rejInit alpha ps.length (sortedP ps)).length = ps.length := by
    rw [rejInit_length, hlen_s]
  rw [bhRejSorted, suffixAny_getD (by omega)]
  constructor
  · rintro ⟨j, hj1, hj2, hj3⟩
    have hj2n : j < ps.length := by omega
    rw [rejInit_getD (by omega)] at hj3
    exact ⟨j, hj1, hj2n, of_decide_eq_true hj3⟩
  · rintro ⟨j, hj1, hj2, hj3⟩
    refine ⟨j, hj1, by omega, ?_⟩
    rw [rejInit_getD (by omega)]
    exact decide_eq_true hj3

theorem bh_rej_iff_adj_le_sorted {alpha : ℚ} {ps : List ℚ} (hp : ∀ p ∈ ps, p ≤ 1)
    {k : ℕ} (hk : k < ps.length) :
    (bhRejSorted alpha ps).getD k false = true ↔ (bhAdjSorted ps).getD k 0 ≤ alpha := by
  rw [bhRejSorted_getD_iff hk, bhAdjSorted_le_alpha_iff hp hk]

theorem bhAdj_at_sortIdx {ps : List ℚ} {k : ℕ} (hk : k < ps.length) :
    (bhAdj ps).getD ((sortIdx ps).getD k 0) 0 = (bhAdjSorted ps).getD k 0 := by
  have hki : k < (sortIdx ps).length := by rw [sortIdx_length]; exact hk
  have hkv : k < (bhAdjSorted ps).length := by rw [bhAdjSorted_length]; exact hk
  have h := scatter_getElem? (d := (0 : ℚ)) (n := ps.length) (sortIdx_nodup ps)
    (by rw [sortIdx_length, bhAdjSorted_length])
    (fun t ht => sortIdx_mem_lt ps ht)
    (getElem?_eq_some_getD 0 hki) (getElem?_eq_some_getD (0 : ℚ) hkv)
  rw [bhAdj, List.getD_eq_getElem?_getD, h]
  rfl

theorem bhRej_at_sortIdx {alpha : ℚ} {ps : List ℚ} {k : ℕ} (hk : k < ps.length) :
    (bhRej alpha ps).getD ((sortIdx ps).getD k 0) false =
      (bhRejSorted alpha ps).getD k false := by
  have hki : k < (sortIdx ps).length := by rw [sortIdx_length]; exact hk
  have hkv : k < (bhRejSorted alpha ps).length := by rw [bhRejSorted_length]; exact hk
  have h := scatter_getElem? (d := false) (n := ps.length) (sortIdx_nodup ps)
    (by rw [sortIdx_length, bhRejSorted_length])
    (fun t ht => sortIdx_mem_lt ps ht)
    (getElem?_eq_some_getD 0 hki) (getElem?_eq_some_getD false hkv)
  rw [bhRej, List.getD_eq_getElem?_getD, h]
  rfl

theorem exists_sortIdx_eq {ps : List ℚ} {t : ℕ} (ht : t < ps.length) :
    ∃ k, k < ps.length ∧ (sortIdx ps).getD k 0 = t := by
  have hmem : t ∈ sortIdx ps := (sortIdx_perm ps).mem_iff.mpr (List.mem_range.mpr ht)
  obtain ⟨k, hk⟩ := List.mem_iff_getElem?.mp hmem
  have hklt : k < (sortIdx ps).length := (List.getElem?_eq_some_iff.mp hk).1
  refine ⟨k, by rwa [sortIdx_length] at hklt, ?_⟩
  rw [List.getD_eq_getElem?_getD, hk]
  rfl

theorem bhRej_iff_bhAdj_le {alpha : ℚ} {ps : List ℚ} (hp : ∀ p ∈ ps, p ≤ 1)
    {t : ℕ} (ht : t < ps.length) :
    (bhRej alpha ps).getD t false = true ↔ (bhAdj ps).getD t 0 ≤ alpha := by
  obtain ⟨k, hk, hkt⟩ := exists_sortIdx_eq ht
  rw [← hkt, bhAdj_at_sortIdx hk, bhRej_at_sortIdx hk, bh_rej_iff_adj_le_sorted hp hk]

/-! ### Helper lemmas: the reshaper batch loop -/

theorem foldl_batchStep (required auxFields : List String) (files : List CsvFile)
    (acc : BatchResult) :
    files.foldl (batchStep required auxFields) acc =
      ⟨acc.tables ++ (processDir required auxFields files).tables,
       acc.processed + (processDir required auxFields files).processed,
       acc.skipped + (processDir required auxFields files).skipped⟩ := by
  induction files generalizing acc with
  | nil => simp [processDir]
  | cons f fs ih =>
    have hdir : processDir required auxFields (f :: fs) =
        fs.foldl (batchStep required auxFields)
          (batchStep required auxFields ⟨[], 0, 0⟩ f) := by
      simp [processDir]
    rw [List.foldl_cons, ih (batchStep required auxFields acc f), hdir,
      ih (batchStep required auxFields ⟨[], 0, 0⟩ f)]
    unfold batchStep
    by_cases hcsv : nameEndsWith f.name ".csv" = true
    · rw [if_pos hcsv, if_pos hcsv]
      cases hpf : processFile required auxFields f with
      | ok w => simp [List.append_assoc, Nat.add_assoc]
      | error e => simp [Nat.add_assoc]
    · rw [if_neg hcsv, if_neg hcsv]
      simp

theorem processDir_cons_skip (required auxFields : List String) (f : CsvFile)
    (fs : List CsvFile) (hcsv : nameEndsWith f.name ".csv" = true)
    (herr : ∃ e, processFile required auxFields f = Except.error e) :
    processDir required auxFields (f :: fs) =
      ⟨(processDir required auxFields fs).tables,
       (processDir required auxFields fs).processed,
       (processDir required auxFields fs).skipped + 1⟩ := by
  obtain ⟨e, he⟩ := herr
  have hstep : batchStep required auxFields ⟨[], 0, 0⟩ f = ⟨[], 0, 1⟩ := by
    unfold batchStep
    rw [if_pos hcsv, he]
  have h : processDir required auxFields (f :: fs) =
      fs.foldl (batchStep required auxFields) ⟨[], 0, 1⟩ := by
    simp [processDir, hstep]
  rw [h, foldl_batchStep]
  simp [Nat.add_comm]

theorem processDir_cons_ignore (required auxFields : List String) (f : CsvFile)
    (fs : List CsvFile) (hcsv : nameEndsWith f.name ".csv" = false) :
    processDir required auxFields (f :: fs) = processDir required auxFields fs := by
  have hstep : batchStep required auxFields ⟨[], 0, 0⟩ f = ⟨[], 0, 0⟩ := by
    unfold batchStep
    rw [if_neg (by simp [hcsv])]
  simp [processDir, hstep]

theorem processDir_append (required auxFields : List String) (l1 l2 : List CsvFile) :
    processDir required auxFields (l1 ++ l2) =
      ⟨(processDir required auxFields l1).tables ++ (processDir required auxFields l2).tables,
       (processDir required auxFields l1).processed + (processDir required auxFields l2).processed,
       (processDir required auxFields l1).skipped + (processDir required auxFields l2).skipped⟩ := by
  rw [processDir, List.foldl_append]
  rw [show l1.foldl (batchStep required auxFields) ⟨[], 0, 0⟩ =
    processDir required auxFields l1 from rfl]
  rw [foldl_batchStep]

theorem processDir_tables_length (required auxFields : List String) (files : List CsvFile) :
    (processDir required auxFields files).tables.length =
      (processDir required auxFields files).processed := by
  induction files with
  | nil => simp [processDir]
  | cons f fs ih =>
    have h : processDir required auxFields (f :: fs) =
        ⟨(processDir required auxFields [f]).tables ++ (processDir required auxFields fs).tables,
         (processDir required auxFields [f]).processed + (processDir required auxFields fs).processed,
         (processDir required auxFields [f]).skipped + (processDir required auxFields fs).skipped⟩ := by
      have := processDir_append required auxFields [f] fs
      simpa using this
    rw [h]
    simp only [List.length_append]
    rw [ih]
    have hone : (processDir required auxFields [f]).tables.length =
        (processDir required auxFields [f]).processed := by
      unfold processDir batchStep
      by_cases hcsv : nameEndsWith f.name ".csv" = true
      · rw [List.foldl_cons]
        rw [if_pos hcsv]
        cases hpf : processFile required auxFields f <;> simp
      · rw [List.foldl_cons]
        rw [if_neg hcsv]
        simp
    omega

/-! ### Helper lemmas: per-file processing and auxiliary fields -/

theorem processFile_ok_shape {required auxFields : List String} {f : CsvFile} {w : Wide}
    (hw : processFile required auxFields f = Except.ok w) :
    (required.filter (fun c => ¬ f.columns.contains c)) = [] ∧
    (pivotPairs f).Nodup ∧
    w = { sourceFile := f.name
          agents := agentsOf f
          triples := f.rows.map (fun r => (agentOf r, questionOf r, answerOf r))
          aux := (auxFields.filter (fun fl => f.columns.contains fl)).map
            (fun fl => (fl, (agentsOf f).map
              (fun a => (a, (firstAuxVal f fl a).getD "")))) } := by
  unfold processFile at hw
  by_cases h1 : (required.filter (fun c => ¬ f.columns.contains c)) = []
  · rw [if_neg (by simpa using h1)] at hw
    by_cases h2 : (pivotPairs f).Nodup
    · rw [if_neg (by simpa using h2)] at hw
      refine ⟨h1, h2, ?_⟩
      exact (Except.ok.injEq _ _).mp hw.symm
    · rw [if_pos (by simpa using h2)] at hw
      exact absurd hw (by simp)
  · rw [if_pos (by simpa using h1)] at hw
    exact absurd hw (by simp)

theorem processFile_error_of_dup {required auxFields : List String} {f : CsvFile}
    (hdup : ¬ (pivotPairs f).Nodup) :
    ∃ e, processFile required auxFields f = Except.error e := by
  unfold processFile
  by_cases h1 : (required.filter (fun c => ¬ f.columns.contains c)) = []
  · rw [if_neg (by simpa using h1), if_pos (by simpa using hdup)]
    exact ⟨_, rfl⟩
  · rw [if_pos (by simpa using h1)]
    exact ⟨_, rfl⟩

theorem lookup_map_self {β : Type} (l : List String) (g : String → β) {k : String}
    (hk : k ∈ l) : (l.map (fun x => (x, g x))).lookup k = some (g k) := by
  induction l with
  | nil => simp at hk
  | cons a as ih =>
    by_cases h : k = a
    · subst h
      simp [List.lookup_cons]
    · have hmem : k ∈ as := by
        rcases List.mem_cons.mp hk with h2 | h2
        · exact absurd h2 h
        · exact h2
      have hbeq : (k == a) = false := by
        simp [h]
      simp [List.lookup_cons, hbeq, ih hmem]

theorem head?_filter_spec {α : Type} (p : α → Bool) (l : List α) {x : α}
    (h : (l.filter p).head? = some x) :
    ∃ i : ℕ, l[i]? = some x ∧ p x = true ∧
      ∀ j : ℕ, j < i → ∀ y, l[j]? = some y → p y = false := by
  induction l with
  | nil => simp at h
  | cons a as ih =>
    by_cases hpa : p a = true
    · rw [List.filter_cons_of_pos hpa] at h
      simp only [List.head?_cons, Option.some.injEq] at h
      subst h
      refine ⟨0, by simp, hpa, ?_⟩
      intro j hj y hy
      omega
    · rw [List.filter_cons_of_neg hpa] at h
      obtain ⟨i, h1, h2, h3⟩ := ih h
      refine ⟨i + 1, by simpa using h1, h2, ?_⟩
      intro j hj y hy
      cases j with
      | zero =>
        simp only [List.getElem?_cons_zero, Option.some.injEq] at hy
        subst hy
        simpa using hpa
      | succ j =>
        simp only [List.getElem?_cons_succ] at hy
        exact h3 j (by omega) y hy

theorem filter_agent_head {f : CsvFile} {a : String} (ha : a ∈ agentsOf f) :
    ∃ r, (f.rows.filter (fun r => agentOf r == a)).head? = some r := by
  have hmem : a ∈ f.rows.map agentOf := by
    simp only [agentsOf] at ha
    exact List.mem_dedup.mp ha
  obtain ⟨r, hr, hra⟩ := List.mem_map.mp hmem
  have hrf : r ∈ f.rows.filter (fun r => agentOf r == a) :=
    List.mem_filter.mpr ⟨hr, by simp [hra]⟩
  have hne : f.rows.filter (fun r => agentOf r == a) ≠ [] := by
    intro hcontra
    rw [hcontra] at hrf
    simp at hrf
  obtain ⟨r0, rs, hcons⟩ := List.exists_cons_of_ne_nil hne
  exact ⟨r0, by rw [hcons]; rfl⟩

/-! ### Helper lemmas: coercion of raw JSON values -/

theorem coerceGroup_ok_of_allnum (vs : List JVal)
    (h : ∀ v ∈ vs, ∃ q, v = JVal.num q) :
    coerceGroup vs = Except.ok (vs.map (fun v =>
      match v with
      | JVal.num q => q
      | JVal.str _ => 0)) := by
  induction vs with
  | nil => simp [coerceGroup]
  | cons v vs ih =>
    obtain ⟨q, hq⟩ := h v (List.mem_cons_self _ _)
    subst hq
    rw [List.map_cons]
    simp only [coerceGroup, ih (fun w hw => h w (List.mem_cons_of_mem _ hw))]
    rfl

theorem coerceGroup_error_of_str {vs : List JVal}
    (h : ∃ v ∈ vs, ∃ s, v = JVal.str s) :
    ∃ e, coerceGroup vs = Except.error e := by
  induction vs with
  | nil =>
    obtain ⟨v, hv, _⟩ := h
    simp at hv
  | cons v vs ih =>
    cases v with
    | str s => exact ⟨_, rfl⟩
    | num q =>
      obtain ⟨w, hw, s, hs⟩ := h
      rcases List.mem_cons.mp hw with rfl | hw2
      · simp at hs
      · obtain ⟨e, he⟩ := ih ⟨w, hw2, s, hs⟩
        refine ⟨e, ?_⟩
        simp only [coerceGroup, he]
        rfl

theorem coerceFamily_ok_num (F : Family) :
    coerceFamily (F.map (fun g => (g.1, g.2.map JVal.num))) = Except.ok F := by
  induction F with
  | nil => simp [coerceFamily]
  | cons g rest ih =>
    have hgrp : coerceGroup (g.2.map JVal.num) = Except.ok g.2 := by
      rw [coerceGroup_ok_of_allnum _ (by
        intro v hv
        obtain ⟨q, _, hq⟩ := List.mem_map.mp hv
        exact ⟨q, hq.symm⟩)]
      congr 1
      rw [List.map_map]
      have hcomp : ((fun v => match v with | JVal.num q => q | JVal.str _ => 0) ∘ JVal.num) =
          (id : ℚ → ℚ) := rfl
      rw [hcomp, List.map_id]
    simp only [List.map_cons, coerceFamily, hgrp, ih]
    rfl

theorem coerceFamily_error_of_str {raw : List (String × List JVal)}
    (h : ∃ g ∈ raw, ∃ v ∈ g.2, ∃ s, v = JVal.str s) :
    ∃ e, coerceFamily raw = Except.error e := by
  induction raw with
  | nil =>
    obtain ⟨g, hg, _⟩ := h
    simp at hg
  | cons g rest ih =>
    obtain ⟨g2, hg2, hv⟩ := h
    rcases List.mem_cons.mp hg2 with rfl | hg3
    · obtain ⟨e, he⟩ := coerceGroup_error_of_str hv
      refine ⟨e, ?_⟩
      simp [coerceFamily, he]
    · cases hgrp : coerceGroup g.2 with
      | error e => exact ⟨e, by simp [coerceFamily, hgrp]⟩
      | ok l =>
        obtain ⟨e, he⟩ := ih ⟨g2, hg3, hv⟩
        refine ⟨e, ?_⟩
        simp only [coerceFamily, hgrp, he]
        rfl

theorem coerceFamily_allempty {raw : List (String × List JVal)}
    (h : ∀ g ∈ raw, g.2 = []) :
    ∃ F : Family, coerceFamily raw = Except.ok F ∧
      (∀ g ∈ F, g.2 = []) ∧ F.map Prod.fst = raw.map Prod.fst := by
  induction raw with
  | nil => exact ⟨[], rfl, by simp, by simp⟩
  | cons g rest ih =>
    have hg : g.2 = [] := h g (List.mem_cons_self _ _)
    obtain ⟨F, hF1, hF2, hF3⟩ := ih (fun x hx => h x (List.mem_cons_of_mem _ hx))
    refine ⟨(g.1, []) :: F, ?_, ?_, ?_⟩
    · simp only [coerceFamily, hg]
      rw [show coerceGroup [] = Except.ok [] from rfl, hF1]
      rfl
    · intro x hx
      rcases List.mem_cons.mp hx with rfl | hx2
      · rfl
      · exact hF2 x hx2
    · rw [List.map_cons, List.map_cons, hF3]

/-! ### Claim theorems -/

/-- C1: for every non-empty p-value family F and every alpha in (0,1),
the adjusted family returned by correct has exactly the keys of F in
the same order, each adjusted group has the length of the raw group,
and the adjusted value at position j of group i is the pooled
BH-corrected value at the recorded offset of group i plus j. -/
theorem C1_repartition_correct (F : Family) (alpha : ℚ) (hF : F ≠ [])
    (h0 : 0 < alpha) (h1 : alpha < 1) :
    ((correct F alpha).1.map Prod.fst = F.map Prod.fst) ∧
    ((correct F alpha).1.map (fun g => g.2.length) = F.map (fun g => g.2.length)) ∧
    (∀ i j : ℕ, i < F.length → j < (F.getD i ("", [])).2.length →
      ((correct F alpha).1.getD i ("", [])).2.getD j 0 =
        (bhAdj (pool F)).getD (offset F i + j) 0) := by
  have hlen : (bhAdj (pool F)).length = (F.map (fun g => g.2.length)).sum := by
    rw [bhAdj_length, pool_length]
  simp only [correct]
  refine ⟨repartition_map_fst _ _ _,
    repartition_lengths _ _ 0 (by rw [hlen]; omega), ?_⟩
  intro i j hi hj
  have h := repartition_getD (bhAdj (pool F)) F 0 i j (by rw [hlen]; omega) hi hj
  simpa using h

/-- C9: the BH-adjusted values taken in ascending order of the raw
p-values (after adjustment, before restoration of the original input
order) form a non-decreasing sequence. -/
theorem C9_bh_monotone (ps : List ℚ) : List.Sorted (· ≤ ·) (bhAdjSorted ps) :=
  clip1_sorted (suffixMin_sorted (bhRaw ps.length (sortedP ps)))

/-- C5: when the input file is missing, and when the pooled family is
empty (empty mapping or all groups empty), the engine terminates with
the non-zero exit status 1 and produces no output (no Except.ok value,
modelling that neither output file is written). -/
theorem C5_empty_or_missing (alpha : ℚ) (raw : List (String × List JVal))
    (h : raw = [] ∨ ∀ g ∈ raw, g.2 = []) :
    runEngine none alpha = Except.error 1 ∧
    runEngine (some raw) alpha = Except.error 1 ∧
    (1 : ℕ) ≠ 0 ∧
    (∀ out : EngineOutput, runEngine (some raw) alpha ≠ Except.ok out) := by
  have hall : ∀ g ∈ raw, g.2 = [] := by
    rcases h with rfl | h
    · intro g hg
      simp at hg
    · exact h
  obtain ⟨F, hF1, hF2, _⟩ := coerceFamily_allempty hall
  have hpool : (pool F).length = 0 := by
    have hnil : pool F = [] := by
      rw [pool, List.flatten_eq_nil_iff]
      intro l hl
      obtain ⟨g, hg, hgl⟩ := List.mem_map.mp hl
      rw [← hgl]
      exact hF2 g hg
    rw [hnil]
    rfl
  have heng : runEngine (some raw) alpha = Except.error 1 := by
    simp only [runEngine, hF1]
    rw [if_pos hpool]
  refine ⟨rfl, heng, one_ne_zero, ?_⟩
  intro out hout
  rw [heng] at hout
  exact absurd hout (by simp)

/-- C3 (amended): if no test is rejected, the three optional summary
fields are absent while n_significant is present with value 0 (it is
not absent, contrary to the original claim); if at least one test is
rejected, effective_fdr_threshold_raw is the maximum raw p-value among
rejected tests, and the min/max adjusted fields are the minimum and
maximum adjusted p-value among rejected tests. -/
theorem C3_summary_fields (alpha : ℚ) (ps : List ℚ) :
    ((bhRej alpha ps).any id = false →
      mkSummary alpha ps =
        { alpha := alpha, n_tests := ps.length, n_significant := 0,
          effective_fdr_threshold_raw := none,
          min_adjusted_p_among_significant := none,
          max_adjusted_p_among_significant := none }) ∧
    ((bhRej alpha ps).any id = true →
      0 < (mkSummary alpha ps).n_significant ∧
      (∃ m, (mkSummary alpha ps).effective_fdr_threshold_raw = some m ∧
        m ∈ selectTrue ps (bhRej alpha ps) ∧
        ∀ x ∈ selectTrue ps (bhRej alpha ps), x ≤ m) ∧
      (∃ m, (mkSummary alpha ps).min_adjusted_p_among_significant = some m ∧
        m ∈ selectTrue (bhAdj ps) (bhRej alpha ps) ∧
        ∀ x ∈ selectTrue (bhAdj ps) (bhRej alpha ps), m ≤ x) ∧
      (∃ m, (mkSummary alpha ps).max_adjusted_p_among_significant = some m ∧
        m ∈ selectTrue (bhAdj ps) (bhRej alpha ps) ∧
        ∀ x ∈ selectTrue (bhAdj ps) (bhRej alpha ps), x ≤ m)) := by
  constructor
  · intro hany
    simp only [mkSummary]
    rw [if_neg (by simp [hany])]
  · intro hany
    have hne : selectTrue ps (bhRej alpha ps) ≠ [] :=
      selectTrue_ne_nil (by rw [bhRej_length]) hany
    have hneA : selectTrue (bhAdj ps) (bhRej alpha ps) ≠ [] :=
      selectTrue_ne_nil (by rw [bhAdj_length, bhRej_length]) hany
    obtain ⟨m1, hm1⟩ := max?_isSome_of_ne_nil hne
    obtain ⟨m2, hm2⟩ := min?_isSome_of_ne_nil hneA
    obtain ⟨m3, hm3⟩ := max?_isSome_of_ne_nil hneA
    simp only [mkSummary]
    rw [if_pos hany]
    exact ⟨(any_iff_count_pos _).mp hany,
      ⟨m1, hm1, (max?_spec hm1).1, (max?_spec hm1).2⟩,
      ⟨m2, hm2, (min?_spec hm2).1, (min?_spec hm2).2⟩,
      ⟨m3, hm3, (max?_spec hm3).1, (max?_spec hm3).2⟩⟩


/-- C4: a CSV file containing a duplicate (agent, question) pair fails
processing with a recorded reason (the duplicate is neither averaged
nor resolved by picking one value), the file is counted as skipped,
and the batch continues with the remaining files. -/
theorem C4_duplicate_skipped (required auxFields : List String)
    (l1 l2 : List CsvFile) (f : CsvFile)
    (hcsv : nameEndsWith f.name ".csv" = true)
    (hdup : ¬ (pivotPairs f).Nodup) :
    (∃ e, processFile required auxFields f = Except.error e) ∧
    (processDir required auxFields (l1 ++ f :: l2)).tables =
      (processDir required auxFields (l1 ++ l2)).tables ∧
    (processDir required auxFields (l1 ++ f :: l2)).processed =
      (processDir required auxFields (l1 ++ l2)).processed ∧
    (processDir required auxFields (l1 ++ f :: l2)).skipped =
      (processDir required auxFields (l1 ++ l2)).skipped + 1 := by
  have herr : ∃ e, processFile required auxFields f = Except.error e :=
    processFile_error_of_dup hdup
  have hmid := processDir_cons_skip required auxFields f l2 hcsv herr
  have h1 := processDir_append required auxFields l1 (f :: l2)
  have h2 := processDir_append required auxFields l1 l2
  rw [hmid] at h1
  refine ⟨herr, ?_, ?_, ?_⟩ <;> rw [h1, h2] <;> simp <;> omega

/-- C7: if zero files are successfully processed, the reshaper fails
with the no-valid-input error and returns no combined output. -/
theorem C7_no_valid_input (required auxFields : List String) (files : List CsvFile)
    (h : (processDir required auxFields files).processed = 0) :
    transform_survey_data_to_wide_format required auxFields files =
      Except.error "No valid CSV files found or all files were skipped" ∧
    ∀ out, transform_survey_data_to_wide_format required auxFields files ≠
      Except.ok out := by
  have htab : (processDir required auxFields files).tables = [] := by
    have hlen := processDir_tables_length required auxFields files
    rw [h] at hlen
    exact List.length_eq_zero.mp hlen
  have hres : transform_survey_data_to_wide_format required auxFields files =
      Except.error "No valid CSV files found or all files were skipped" := by
    simp only [transform_survey_data_to_wide_format]
    rw [if_pos (by rw [htab]; rfl)]
  refine ⟨hres, ?_⟩
  intro out hout
  rw [hres] at hout
  exact absurd hout (by simp)

theorem processDir_all_non_csv (required auxFields : List String)
    (files : List CsvFile) :
    (∀ g ∈ files, nameEndsWith g.name ".csv" = false) →
      processDir required auxFields files = ⟨[], 0, 0⟩ := by
  induction files with
  | nil => intro _; rfl
  | cons g gs ih =>
    intro hall
    rw [processDir_cons_ignore required auxFields g gs (hall g (List.mem_cons_self _ _))]
    exact ih (fun x hx => hall x (List.mem_cons_of_mem _ hx))

/-- C10: a file whose name does not end in .csv is ignored entirely by
the batch loop (result identical, neither processed nor counted as
skipped); consequently a directory containing only non-CSV files
yields zero processed and zero skipped files and the fatal
no-valid-input error. -/
theorem C10_non_csv_ignored (required auxFields : List String)
    (l1 l2 : List CsvFile) (f : CsvFile)
    (hcsv : nameEndsWith f.name ".csv" = false) :
    processDir required auxFields (l1 ++ f :: l2) =
      processDir required auxFields (l1 ++ l2) ∧
    (∀ files : List CsvFile, (∀ g ∈ files, nameEndsWith g.name ".csv" = false) →
      (processDir required auxFields files).processed = 0 ∧
      (processDir required auxFields files).skipped = 0 ∧
      transform_survey_data_to_wide_format required auxFields files =
        Except.error "No valid CSV files found or all files were skipped") := by
  constructor
  · have hmid := processDir_cons_ignore required auxFields f l2 hcsv
    have h1 := processDir_append required auxFields l1 (f :: l2)
    have h2 := processDir_append required auxFields l1 l2
    rw [hmid] at h1
    rw [h1, h2]
  · intro files hall
    have hzero := processDir_all_non_csv required auxFields files hall
    refine ⟨by rw [hzero], by rw [hzero], ?_⟩
    simp only [transform_survey_data_to_wide_format]
    rw [if_pos (by rw [hzero]; rfl)]

/-- C8: for every successfully processed file and every auxiliary
per-agent field present in the file columns, the attached column
holds, for each agent, the value of that field in the first row of the
file whose agent identifier is that agent, in original row order. -/
theorem C8_aux_first_observed (required auxFields : List String) (f : CsvFile) (w : Wide)
    (hw : processFile required auxFields f = Except.ok w)
    (field : String) (hfield : field ∈ auxFields) (hcol : field ∈ f.columns)
    (a : String) (ha : a ∈ w.agents) :
    ∃ col, w.aux.lookup field = some col ∧
      ∃ i : ℕ, ∃ r : Row, f.rows[i]? = some r ∧ agentOf r = a ∧
        (∀ j : ℕ, j < i → ∀ q : Row, f.rows[j]? = some q → agentOf q ≠ a) ∧
        col.lookup a = some ((r.getCol field).getD "") := by
  obtain ⟨hcols, hnodup, hwdef⟩ := processFile_ok_shape hw
  subst hwdef
  have ha2 : a ∈ agentsOf f := ha
  have hfmem : field ∈ auxFields.filter (fun fl => f.columns.contains fl) :=
    List.mem_filter.mpr ⟨hfield, by simpa using hcol⟩
  refine ⟨(agentsOf f).map (fun a2 => (a2, (firstAuxVal f field a2).getD "")), ?_, ?_⟩
  · exact lookup_map_self (auxFields.filter (fun fl => f.columns.contains fl))
      (fun fl => (agentsOf f).map (fun a2 => (a2, (firstAuxVal f fl a2).getD ""))) hfmem
  · obtain ⟨r0, hr0⟩ := filter_agent_head ha2
    obtain ⟨i, hi1, hi2, hi3⟩ := head?_filter_spec _ _ hr0
    refine ⟨i, r0, hi1, by simpa using hi2, ?_, ?_⟩
    · intro j hj q hq
      have hfalse := hi3 j hj q hq
      simpa using hfalse
    · rw [lookup_map_self (agentsOf f)
        (fun a2 => (firstAuxVal f field a2).getD "") ha2]
      congr 1
      rw [firstAuxVal, hr0]
      rfl

/-! ### Concrete evaluation of the end-to-end example family -/

theorem bh_example_adjusted :
    bhAdjSorted (pool [("A", [1/100, 1/2, 1/5]), ("B", [1/25])]) =
      [1/25, 2/25, 4/15, 1/2] := by
  norm_num [pool, List.flatten, bhAdjSorted, sortedP, sortedPairs, withIdx, sortKey,
    List.insertionSort, List.orderedInsert, bhRaw, suffixMin, clip1]

theorem bh_example_sortedPairs :
    sortedPairs [1/100, 1/2, 1/5, 1/25] =
      [(1/100, 0), (1/25, 3), (1/5, 2), (1/2, 1)] := by
  norm_num [sortedPairs, withIdx, sortKey, List.insertionSort, List.orderedInsert]

theorem bh_example_sortIdx : sortIdx [1/100, 1/2, 1/5, 1/25] = [0, 3, 2, 1] := by
  rw [sortIdx, bh_example_sortedPairs]
  rfl

theorem bh_example_sortedP :
    sortedP [1/100, 1/2, 1/5, 1/25] = [1/100, 1/25, 1/5, 1/2] := by
  rw [sortedP, bh_example_sortedPairs]
  rfl

theorem bh_example_rejSorted :
    bhRejSorted (1/20) [1/100, 1/2, 1/5, 1/25] = [true, false, false, false] := by
  rw [bhRejSorted, bh_example_sortedP]
  norm_num [rejInit, withIdx, suffixAny]

theorem bh_example_rej :
    bhRej (1/20) [1/100, 1/2, 1/5, 1/25] = [true, false, false, false] := by
  rw [bhRej, bh_example_sortIdx, bh_example_rejSorted]
  decide

theorem bh_example_adj :
    bhAdj [1/100, 1/2, 1/5, 1/25] = [1/25, 1/2, 4/15, 2/25] := by
  have hadjs : bhAdjSorted [1/100, 1/2, 1/5, 1/25] = [1/25, 2/25, 4/15, 1/2] :=
    bh_example_adjusted
  rw [bhAdj, bh_example_sortIdx, hadjs]
  rfl

theorem bh_example_summary :
    mkSummary (1/20) (pool [("A", [1/100, 1/2, 1/5]), ("B", [1/25])]) =
      { alpha := 1/20, n_tests := 4, n_significant := 1,
        effective_fdr_threshold_raw := some (1/100),
        min_adjusted_p_among_significant := some (1/25),
        max_adjusted_p_among_significant := some (1/25) } := by
  have hpool : pool [("A", [1/100, 1/2, 1/5]), ("B", [1/25])] =
      [1/100, 1/2, 1/5, 1/25] := rfl
  rw [hpool]
  simp only [mkSummary, bh_example_rej, bh_example_adj]
  rfl

/-- C2 (amended): for every pooled sequence of raw p-values in [0,1]
and alpha in (0,1): the pooled values are sorted ascending; the
adjusted value at sorted rank k is the minimum over ranks j at or
above k of p(j) * n / (j+1); the adjusted and rejected sequences are
returned in original input order via the argsort permutation; a test
is rejected iff its adjusted value is at most alpha.  For the family
A to [0.01, 0.5, 0.2] and B to [0.04] at alpha = 0.05, the adjusted
values on sorted input are [0.04, 0.08, 4/15, 0.5] (4/15 = 0.2666...,
printed rounded as 0.2667), with n_significant = 1 (not 2) and
effective_fdr_threshold_raw = 0.01 (not 0.04). -/
theorem C2_bh_procedure (alpha : ℚ) (ps : List ℚ)
    (hp : ∀ p ∈ ps, 0 ≤ p ∧ p ≤ 1) (h0 : 0 < alpha) (h1 : alpha < 1) :
    ((sortedP ps).Perm ps ∧ List.Sorted (· ≤ ·) (sortedP ps)) ∧
    (∀ k : ℕ, k < ps.length →
      (∀ j : ℕ, k ≤ j → j < ps.length →
        (bhAdjSorted ps).getD k 0 ≤
          (sortedP ps).getD j 0 * (ps.length : ℚ) / ((j : ℚ) + 1)) ∧
      (∃ j : ℕ, k ≤ j ∧ j < ps.length ∧
        (bhAdjSorted ps).getD k 0 =
          (sortedP ps).getD j 0 * (ps.length : ℚ) / ((j : ℚ) + 1))) ∧
    (∀ k : ℕ, k < ps.length →
      (bhAdj ps).getD ((sortIdx ps).getD k 0) 0 = (bhAdjSorted ps).getD k 0 ∧
      (bhRej alpha ps).getD ((sortIdx ps).getD k 0) false =
        (bhRejSorted alpha ps).getD k false) ∧
    (∀ t : ℕ, t < ps.length →
      ((bhRej alpha ps).getD t false = true ↔ (bhAdj ps).getD t 0 ≤ alpha)) ∧
    (bhAdjSorted (pool [("A", [1/100, 1/2, 1/5]), ("B", [1/25])]) =
        [1/25, 2/25, 4/15, 1/2] ∧
      (mkSummary (1/20)
        (pool [("A", [1/100, 1/2, 1/5]), ("B", [1/25])])).n_significant = 1 ∧
      (mkSummary (1/20)
        (pool [("A", [1/100, 1/2, 1/5]), ("B", [1/25])])).effective_fdr_threshold_raw =
        some (1/100)) := by
  have hp1 : ∀ p ∈ ps, p ≤ 1 := fun p hp2 => (hp p hp2).2
  refine ⟨⟨sortedP_perm ps, sortedP_sorted ps⟩, ?_, ?_, ?_, ?_⟩
  · intro k hk
    have heq := (bhAdjSorted_eq_suffixMin hp1 hk).1
    constructor
    · intro j hkj hj
      rw [heq]
      have hle := suffixMin_le (l := bhRaw ps.length (sortedP ps)) hkj
        (by rw [bhRaw_length, sortedP_length]; exact hj)
      rwa [bhRaw_getD (by rw [sortedP_length]; exact hj)] at hle
    · obtain ⟨j, hj1, hj2, hj3⟩ := suffixMin_mem
        (l := bhRaw ps.length (sortedP ps)) (k := k)
        (by rw [bhRaw_length, sortedP_length]; exact hk)
      have hj2n : j < ps.length := by
        rw [bhRaw_length, sortedP_length] at hj2
        exact hj2
      refine ⟨j, hj1, hj2n, ?_⟩
      rw [heq, hj3, bhRaw_getD (by rw [sortedP_length]; exact hj2n)]
  · intro k hk
    exact ⟨bhAdj_at_sortIdx hk, bhRej_at_sortIdx hk⟩
  · intro t ht
    exact bhRej_iff_bhAdj_le hp1 ht
  · exact ⟨bh_example_adjusted, by rw [bh_example_summary], by rw [bh_example_summary]⟩

/-- C2 counterexample: on the end-to-end example family at alpha 0.05
the engine computes n_significant = 1 (the claim states 2),
effective_fdr_threshold_raw = 0.01 = 1/100 (the claim states 0.04 =
1/25), and the third sorted adjusted value is 4/15 = 0.2666..., not
the stated 0.2667. -/
theorem C2_counterexample :
    (mkSummary (1/20)
      (pool [("A", [1/100, 1/2, 1/5]), ("B", [1/25])])).n_significant = 1 ∧
    (mkSummary (1/20)
      (pool [("A", [1/100, 1/2, 1/5]), ("B", [1/25])])).n_significant ≠ 2 ∧
    (mkSummary (1/20)
      (pool [("A", [1/100, 1/2, 1/5]), ("B", [1/25])])).effective_fdr_threshold_raw ≠
      some (1/25) ∧
    (bhAdjSorted (pool [("A", [1/100, 1/2, 1/5]), ("B", [1/25])])).getD 2 0 ≠
      2667/10000 := by
  refine ⟨by rw [bh_example_summary], by rw [bh_example_summary]; simp, ?_, ?_⟩
  · rw [bh_example_summary]
    simp only [Option.some.injEq]
    norm_num
  · rw [bh_example_adjusted]
    norm_num

/-! ### Concrete evaluation for out-of-range and no-rejection inputs -/

theorem c6_adjSorted_two : bhAdjSorted [(2 : ℚ)] = [1] := by
  norm_num [bhAdjSorted, sortedP, sortedPairs, withIdx, sortKey,
    List.insertionSort, List.orderedInsert, bhRaw, suffixMin, clip1]

theorem c6_adj_two : bhAdj [(2 : ℚ)] = [1] := by
  rw [bhAdj, show sortIdx [(2 : ℚ)] = [0] from rfl, c6_adjSorted_two]
  rfl

theorem c6_rejSorted_two : bhRejSorted (1/20) [(2 : ℚ)] = [false] := by
  rw [bhRejSorted, show sortedP [(2 : ℚ)] = [2] from rfl]
  norm_num [rejInit, withIdx, suffixAny]

theorem c6_rej_two : bhRej (1/20) [(2 : ℚ)] = [false] := by
  rw [bhRej, show sortIdx [(2 : ℚ)] = [0] from rfl, c6_rejSorted_two]
  decide

theorem c3_rejSorted_half : bhRejSorted (1/20) [(1 : ℚ)/2] = [false] := by
  rw [bhRejSorted, show sortedP [(1 : ℚ)/2] = [1/2] from rfl]
  norm_num [rejInit, withIdx, suffixAny]

theorem c3_rej_half : bhRej (1/20) [(1 : ℚ)/2] = [false] := by
  rw [bhRej, show sortIdx [(1 : ℚ)/2] = [0] from rfl, c3_rejSorted_half]
  decide

theorem c3_rejSorted_small : bhRejSorted (1/20) [(1 : ℚ)/100] = [true] := by
  rw [bhRejSorted, show sortedP [(1 : ℚ)/100] = [1/100] from rfl]
  norm_num [rejInit, withIdx, suffixAny]

theorem c3_rej_small : bhRej (1/20) [(1 : ℚ)/100] = [true] := by
  rw [bhRej, show sortIdx [(1 : ℚ)/100] = [0] from rfl, c3_rejSorted_small]
  decide

/-- C3 counterexample: for the singleton family with p-value 0.5 at
alpha 0.05 no test is rejected, and the summary carries n_significant
present with value 0 while the three optional fields are absent: the
claim requires n_significant to be absent as well (and explicitly not
zero), but the code writes the number 0. -/
theorem C3_counterexample :
    (bhRej (1/20) [(1 : ℚ)/2]).any id = false ∧
    (mkSummary (1/20) [(1 : ℚ)/2]).n_significant = 0 ∧
    (mkSummary (1/20) [(1 : ℚ)/2]).effective_fdr_threshold_raw = none ∧
    (mkSummary (1/20) [(1 : ℚ)/2]).min_adjusted_p_among_significant = none ∧
    (mkSummary (1/20) [(1 : ℚ)/2]).max_adjusted_p_among_significant = none := by
  refine ⟨by rw [c3_rej_half]; rfl, ?_, ?_, ?_, ?_⟩ <;>
    simp only [mkSummary, c3_rej_half] <;> rfl

/-- C6 counterexample: a family whose only value is 2 (outside [0,1])
is not rejected with a validation error: the engine runs to completion
and writes both outputs (the adjusted value is clipped to 1). -/
theorem C6_counterexample :
    runEngine (some [("A", [JVal.num 2])]) (1/20) =
      Except.ok
        { adjusted := [("A", [1])],
          summary :=
            { alpha := 1/20, n_tests := 1, n_significant := 0,
              effective_fdr_threshold_raw := none,
              min_adjusted_p_among_significant := none,
              max_adjusted_p_among_significant := none } } := by
  have hco : coerceFamily [("A", [JVal.num 2])] = Except.ok [("A", [(2 : ℚ)])] := rfl
  have hpool : pool [("A", [(2 : ℚ)])] = [2] := rfl
  simp only [runEngine, hco]
  rw [if_neg (by rw [hpool]; simp)]
  simp only [correct, hpool, c6_adj_two, mkSummary, c6_rej_two]
  rfl

/-- C6 (amended): the engine performs no range validation: a family of
numeric values with a non-empty pool is processed to completion even
when values lie outside [0,1], silently including them in the
correction; a non-numeric value terminates the engine with the
non-zero exit status 1 during float coercion (an uncaught conversion
error, not a validation error naming the group). -/
theorem C6_no_range_validation (alpha : ℚ) :
    (∀ raw : List (String × List JVal),
      (∃ g ∈ raw, ∃ v ∈ g.2, ∃ s, v = JVal.str s) →
        runEngine (some raw) alpha = Except.error 1) ∧
    (∀ F : Family, pool F ≠ [] →
      runEngine (some (F.map (fun g => (g.1, g.2.map JVal.num)))) alpha =
        Except.ok { adjusted := (correct F alpha).1, summary := (correct F alpha).2 }) := by
  constructor
  · intro raw h
    obtain ⟨e, he⟩ := coerceFamily_error_of_str h
    simp only [runEngine, he]
  · intro F hF
    simp only [runEngine, coerceFamily_ok_num F]
    rw [if_neg (by rw [List.length_eq_zero]; exact hF)]

/-! ### Witnesses -/

/-- Witness for C1 at the concrete family with one group. -/
theorem C1_witness :
    (correct [("A", [(1 : ℚ)/2])] (1/20)).1.map Prod.fst =
      [("A", [(1 : ℚ)/2])].map Prod.fst :=
  (C1_repartition_correct [("A", [1/2])] (1/20) (by simp) (by norm_num) (by norm_num)).1

/-- Witness for C2 at a concrete one-element pooled sequence; the
conjunct extracted is the fully evaluated end-to-end example. -/
theorem C2_witness :
    bhAdjSorted (pool [("A", [1/100, 1/2, 1/5]), ("B", [1/25])]) =
        [1/25, 2/25, 4/15, 1/2] ∧
      (mkSummary (1/20)
        (pool [("A", [1/100, 1/2, 1/5]), ("B", [1/25])])).n_significant = 1 ∧
      (mkSummary (1/20)
        (pool [("A", [1/100, 1/2, 1/5]), ("B", [1/25])])).effective_fdr_threshold_raw =
        some (1/100) :=
  (C2_bh_procedure (1/20) [1/2]
    (by intro p hp; rw [List.mem_singleton.mp hp]; norm_num)
    (by norm_num) (by norm_num)).2.2.2.2

/-- Witness for C3 at a concrete family with one rejected test. -/
theorem C3_witness :
    0 < (mkSummary (1/20) [(1 : ℚ)/100]).n_significant :=
  ((C3_summary_fields (1/20) [1/100]).2 (by rw [c3_rej_small]; rfl)).1

/-- Witness for C4 at the concrete duplicated file. -/
theorem C4_witness :
    (∃ e, processFile defaultRequiredColumns defaultAdditionalFields dupExample =
      Except.error e) ∧
    (processDir defaultRequiredColumns defaultAdditionalFields [dupExample]).skipped =
      (processDir defaultRequiredColumns defaultAdditionalFields []).skipped + 1 := by
  have h := C4_duplicate_skipped defaultRequiredColumns defaultAdditionalFields
    [] [] dupExample (by decide) (by decide)
  exact ⟨h.1, h.2.2.2⟩

/-- Witness for C5 at the family with one empty group. -/
theorem C5_witness :
    runEngine none (1/20) = Except.error 1 ∧
    runEngine (some [("groupA", [])]) (1/20) = Except.error 1 := by
  have h := C5_empty_or_missing (1/20) [("groupA", [])]
    (Or.inr (by intro g hg; rw [List.mem_singleton.mp hg]))
  exact ⟨h.1, h.2.1⟩

/-- Witness for C6: a non-numeric value aborts the run with exit
status 1, and an out-of-range family is processed to completion. -/
theorem C6_witness :
    runEngine (some [("A", [JVal.str "oops"])]) (1/20) = Except.error 1 ∧
    runEngine (some [("A", [JVal.num 2, JVal.num (1/2)])]) (1/20) =
      Except.ok { adjusted := (correct [("A", [2, 1/2])] (1/20)).1,
                  summary := (correct [("A", [2, 1/2])] (1/20)).2 } := by
  constructor
  · exact (C6_no_range_validation (1/20)).1 [("A", [JVal.str "oops"])]
      ⟨("A", [JVal.str "oops"]), by simp, JVal.str "oops", by simp, "oops", rfl⟩
  · exact (C6_no_range_validation (1/20)).2 [("A", [2, 1/2])] (by simp [pool])

/-- Witness for C7 at the empty directory listing. -/
theorem C7_witness :
    transform_survey_data_to_wide_format defaultRequiredColumns
      defaultAdditionalFields [] =
      Except.error "No valid CSV files found or all files were skipped" :=
  (C7_no_valid_input defaultRequiredColumns defaultAdditionalFields [] rfl).1

/-- Witness for C8 at the concrete example file: the attached
extraversion column holds, for agent a1, the value of the first row of
the file. -/
theorem C8_witness :
    ∃ col, exampleWide.aux.lookup "agent.extraversion_score" = some col ∧
      ∃ i : ℕ, ∃ r : Row, exampleCsv.rows[i]? = some r ∧ agentOf r = "a1" ∧
        (∀ j : ℕ, j < i → ∀ q : Row, exampleCsv.rows[j]? = some q → agentOf q ≠ "a1") ∧
        col.lookup "a1" = some ((r.getCol "agent.extraversion_score").getD "") :=
  C8_aux_first_observed defaultRequiredColumns defaultAdditionalFields
    exampleCsv exampleWide rfl "agent.extraversion_score"
    (by decide) (by decide) "a1" (by decide)

/-- Witness for C10 at the concrete non-CSV file. -/
theorem C10_witness :
    (processDir defaultRequiredColumns defaultAdditionalFields [textExample]).processed = 0 ∧
    (processDir defaultRequiredColumns defaultAdditionalFields [textExample]).skipped = 0 ∧
    transform_survey_data_to_wide_format defaultRequiredColumns defaultAdditionalFields
      [textExample] =
      Except.error "No valid CSV files found or all files were skipped" :=
  (C10_non_csv_ignored defaultRequiredColumns defaultAdditionalFields [] [] textExample
    (by decide)).2 [textExample]
    (by intro g hg; rw [List.mem_singleton.mp hg]; decide)
